import Mathlib

/-!
Verification of the hunspell `.aff` low-level parser (`aff_parser` in
`src/hunspell/aff_parser.cxx`).

The parser reads a stream line by line.  Lines are modelled as `List Char`
(the terminator already stripped by `getline`).  The member
`std::unordered_map<std::string, std::vector<std::string>> table` is
modelled as an association list with unique keys; `std::vector` push_back
becomes appending to the list held at the key.  The input stream is
modelled as the list of lines that `getline` delivers successfully, plus a
flag saying whether the read following the last delivered line fails hard
(failbit without eofbit) or is a normal end of stream.
-/

namespace Hunspell

/-- Whitespace as classified by `isspace` in the default "C" locale, which is
what `operator>>(istream, ws)` and `operator>>(istream, string)` consult:
space, tab, newline, vertical tab, form feed, carriage return. -/
def isSpaceC (c : Char) : Bool :=
  c = ' ' || c = '\t' || c = '\n' || c = '\x0b' || c = '\x0c' || c = '\r'

/-- One physical line, without its terminator. -/
abbrev Line := List Char

/-- The vector of parameter lines stored under one command. -/
abbrev Params := List Line

/-- The `table` member: map from command name to its vector of parameter
lines, as an association list with unique keys. -/
abbrev Table := List (Line × Params)

/-- Coerce a string literal to a `Line`. -/
def strL (s : String) : Line := s.data

namespace Table

/-- Lookup `table.find(key)`: the value stored at `key`, if present. -/
def find : Table → Line → Option Params
  | [], _ => none
  | (k, v) :: rest, key => if k = key then some v else find rest key

/-- Indexing `table[key]` when only the existence of the entry matters: default-constructs
an empty vector for a previously unseen key, otherwise leaves the table
unchanged. -/
def ensure (t : Table) (k : Line) : Table :=
  match find t k with
  | some _ => t
  | none => t ++ [(k, [])]

/-- Push `table[k].push_back(p)`: appends one parameter line to the vector at
`k`, default-constructing the entry first when `k` is absent. -/
def append1 : Table → Line → Line → Table
  | [], k, p => [(k, [p])]
  | (k2, v) :: rest, k, p =>
      if k2 = k then (k2, v ++ [p]) :: rest else (k2, v) :: append1 rest k p

end Table

/-- Member `clear` of the parser class: `table.clear()`. -/
def clear (_t : Table) : Table := []

/-- The body of the `parse` loop for one successfully read line:
`stringstream ss(line); ss >> ws;` then either skip (empty or comment), or
read and uppercase the command, touch `table[command]`, `ss >> ws`, and if
anything remains `getline` it and push it onto the vector of the command. -/
def processLine (t : Table) (line : Line) : Table :=
  let s1 := line.dropWhile isSpaceC
  match s1 with
  | [] => t
  | c :: _ =>
    if c = '#' then t
    else
      let command := (s1.takeWhile fun a => !isSpaceC a).map Char.toUpper
      let t1 := Table.ensure t command
      let s2 := (s1.dropWhile fun a => !isSpaceC a).dropWhile isSpaceC
      if s2 = [] then t1
      else Table.append1 t1 command s2

/-- The input stream handed to `parse`: the lines `getline` delivers
successfully, in order, and whether the read after them fails hard
(`fail() && !eof()`, `hardErr = true`) or is a plain end of stream
(`hardErr = false`). -/
structure InStream where
  lines : List Line
  hardErr : Bool

/-- The `do`/`while` loop of `parse` over the successfully read lines. -/
def parseLines (t : Table) : List Line → Table
  | [] => t
  | l :: ls => parseLines (processLine t l) ls

/-- Member `parse` of the parser class: processes every delivered line; a hard read
failure executes `clear()` and returns `false`, a normal end of stream
returns `true`. -/
def parse (t : Table) (s : InStream) : Bool × Table :=
  let t2 := parseLines t s.lines
  if s.hardErr then (false, clear t2) else (true, t2)

/-- Member `is_command_present`: `table.count(command)` converted to
`bool`; the method does not modify `table`, so the state component is
returned unchanged. -/
def is_command_present (t : Table) (command : Line) : Bool × Table :=
  ((Table.find t command).isSome, t)

/-- Member `get_command_parametars`: via `table.find`; the stored vector
when the key exists, else the `empty_vec` member; `table` unchanged. -/
def get_command_parametars (t : Table) (command : Line) : Params × Table :=
  match Table.find t command with
  | some v => (v, t)
  | none => ([], t)

/-- Member `data`: read-only access to the whole `table`. -/
def data (t : Table) : Table × Table := (t, t)

/-! ## Observables of one line, following the wording of the specification -/

/-- A line the loop does not skip: after leading whitespace something
remains, and it is not `#`. -/
def significantLine (line : Line) : Bool :=
  match line.dropWhile isSpaceC with
  | [] => false
  | c :: _ => c != '#'

/-- The directive token of a line: the maximal leading run of
non-whitespace characters after leading whitespace, each character
uppercased by the fixed ASCII transform. -/
def upperToken (line : Line) : Line :=
  ((line.dropWhile isSpaceC).takeWhile fun a => !isSpaceC a).map Char.toUpper

/-- The trailing parameter text of a line: everything from the first
non-whitespace character after the token to the end of the line. -/
def paramText (line : Line) : Line :=
  (((line.dropWhile isSpaceC).dropWhile fun a => !isSpaceC a).dropWhile isSpaceC)

/-- A significant line whose token uppercases to `k`. -/
def touches (k : Line) (line : Line) : Bool :=
  significantLine line && upperToken line == k

/-- A line that appends a parameter line to key `k`. -/
def contributes (k : Line) (line : Line) : Bool :=
  touches k line && !(paramText line).isEmpty

/-! ## Basic lemmas -/

/-- The function `processLine` re-expressed through the per-line observables. -/
theorem processLine_eq (t : Table) (line : Line) :
    processLine t line =
      if significantLine line then
        (if paramText line = [] then Table.ensure t (upperToken line)
         else Table.append1 (Table.ensure t (upperToken line)) (upperToken line)
                (paramText line))
      else t := by
  unfold processLine significantLine upperToken paramText
  cases h : line.dropWhile isSpaceC with
  | nil => simp
  | cons c cs =>
    by_cases hc : c = '#'
    · simp [hc]
    · simp [hc]

theorem find_append (t u : Table) (k : Line) :
    Table.find (t ++ u) k = ((Table.find t k).orElse fun _ => Table.find u k) := by
  induction t with
  | nil => simp [Table.find]
  | cons p rest ih =>
    obtain ⟨k2, v⟩ := p
    by_cases h : k2 = k <;> simp [Table.find, h, ih]

theorem find_ensure_self (t : Table) (k : Line) :
    Table.find (Table.ensure t k) k = some ((Table.find t k).getD []) := by
  unfold Table.ensure
  cases h : Table.find t k with
  | none => simp [find_append, h, Table.find]
  | some v => simp [h]

theorem find_ensure_ne (t : Table) (k k2 : Line) (h : k2 ≠ k) :
    Table.find (Table.ensure t k) k2 = Table.find t k2 := by
  unfold Table.ensure
  cases hf : Table.find t k with
  | none =>
    rw [find_append]
    cases hf2 : Table.find t k2 with
    | none => simp [Table.find, Ne.symm h]
    | some v => simp
  | some v => rfl

theorem find_append1_self (t : Table) (k p : Line) :
    Table.find (Table.append1 t k p) k = some ((Table.find t k).getD [] ++ [p]) := by
  induction t with
  | nil => simp [Table.append1, Table.find]
  | cons q rest ih =>
    obtain ⟨k2, v⟩ := q
    by_cases h : k2 = k <;> simp [Table.append1, Table.find, h, ih]

theorem find_append1_ne (t : Table) (k p k2 : Line) (h : k2 ≠ k) :
    Table.find (Table.append1 t k p) k2 = Table.find t k2 := by
  induction t with
  | nil => simp [Table.append1, Table.find, Ne.symm h]
  | cons q rest ih =>
    obtain ⟨k3, v⟩ := q
    by_cases h3 : k3 = k
    · subst h3
      simp [Table.append1, Table.find, Ne.symm h]
    · simp [Table.append1, Table.find, h3, ih]

theorem get_parametars_fst (t : Table) (k : Line) :
    (get_command_parametars t k).1 = (Table.find t k).getD [] := by
  unfold get_command_parametars
  cases Table.find t k <;> rfl

theorem contributes_touches {k line : Line} (h : contributes k line = true) :
    touches k line = true := by
  unfold contributes at h
  exact (Bool.and_eq_true _ _ |>.mp h).1

theorem filter_contributes_nil (k : Line) (ls : List Line)
    (h : ls.any (touches k) = false) : ls.filter (contributes k) = [] := by
  induction ls with
  | nil => rfl
  | cons l rest ih =>
    rw [List.any_cons, Bool.or_eq_false_iff] at h
    have hc : contributes k l = false := by
      cases hcc : contributes k l with
      | false => rfl
      | true => rw [contributes_touches hcc] at h; exact absurd h.1 (by simp)
    rw [List.filter_cons_of_neg (by simp [hc])]
    exact ih h.2

theorem not_contributes_of_any_false (k : Line) (ls : List Line)
    (h : ls.any (touches k) = false) : ∀ a ∈ ls, contributes k a = false := by
  intro a haa
  cases hca : contributes k a with
  | false => rfl
  | true =>
    have ht := contributes_touches hca
    rw [List.any_eq_false] at h
    exact absurd ht (h a haa)

theorem find_processLine_other (t : Table) (line k : Line)
    (h : touches k line = false) :
    Table.find (processLine t line) k = Table.find t k := by
  rw [processLine_eq]
  cases hs : significantLine line with
  | false => rfl
  | true =>
    have hk : k ≠ upperToken line := by
      intro hkk
      unfold touches at h
      rw [hs, hkk] at h
      simp at h
    simp only [if_true]
    by_cases hp : paramText line = []
    · rw [if_pos hp, find_ensure_ne t (upperToken line) k hk]
    · rw [if_neg hp, find_append1_ne _ (upperToken line) (paramText line) k hk,
        find_ensure_ne t (upperToken line) k hk]

theorem find_processLine_touch_nop (t : Table) (line k : Line)
    (ht : touches k line = true) (hp : paramText line = []) :
    Table.find (processLine t line) k = some ((Table.find t k).getD []) := by
  unfold touches at ht
  obtain ⟨hs, hk⟩ := Bool.and_eq_true _ _ |>.mp ht
  have hk2 : upperToken line = k := by simpa using hk
  rw [processLine_eq, hs, if_pos rfl, if_pos hp, hk2, find_ensure_self]

theorem find_processLine_contrib (t : Table) (line k : Line)
    (hc : contributes k line = true) :
    Table.find (processLine t line) k
      = some ((Table.find t k).getD [] ++ [paramText line]) := by
  unfold contributes at hc
  obtain ⟨ht, hp⟩ := Bool.and_eq_true _ _ |>.mp hc
  have hp2 : paramText line ≠ [] := by simpa using hp
  unfold touches at ht
  obtain ⟨hs, hk⟩ := Bool.and_eq_true _ _ |>.mp ht
  have hk2 : upperToken line = k := by simpa using hk
  rw [processLine_eq, hs, if_pos rfl, if_neg hp2, hk2, find_append1_self,
    find_ensure_self]
  simp

/-- How the whole loop transforms the entry at one key: present keys get
the contributed parameter lines appended in file order, other keys are
untouched. -/
theorem find_parseLines (lines : List Line) (t : Table) (k : Line) :
    Table.find (parseLines t lines) k =
      if lines.any (touches k) then
        some ((Table.find t k).getD []
              ++ (lines.filter (contributes k)).map paramText)
      else Table.find t k := by
  induction lines generalizing t with
  | nil => simp [parseLines]
  | cons l ls ih =>
    rw [parseLines, ih (processLine t l)]
    cases ht : touches k l with
    | false =>
      have hc : contributes k l = false := by
        cases hcc : contributes k l with
        | false => rfl
        | true => rw [contributes_touches hcc] at ht; exact absurd ht (by simp)
      rw [find_processLine_other t l k ht]
      simp [List.any_cons, ht, List.filter_cons, hc]
    | true =>
      cases hc : contributes k l with
      | true =>
        rw [find_processLine_contrib t l k hc]
        cases ha : ls.any (touches k) with
        | true =>
          simp [List.any_cons, ht, List.filter_cons, hc, ha]
        | false =>
          simp only [List.any_cons, ht, List.filter_cons, hc, ha,
            filter_contributes_nil k ls ha]
          simp
      | false =>
        have hp : paramText l = [] := by
          unfold contributes at hc
          rw [ht] at hc
          simpa using hc
        rw [find_processLine_touch_nop t l k ht hp]
        cases ha : ls.any (touches k) with
        | true =>
          simp [List.any_cons, ht, List.filter_cons, hc, ha]
        | false =>
          simp only [List.any_cons, ht, List.filter_cons, hc, ha,
            filter_contributes_nil k ls ha]
          simp

/-! ## Claim theorems -/

/-- C1: a line read failing for a reason other than end of stream makes
`parse` return failure with the index emptied, whatever was accumulated
before — by earlier lines of this call or by earlier calls. -/
theorem parse_hard_failure_wipes (t : Table) (s : InStream)
    (h : s.hardErr = true) : parse t s = (false, []) := by
  simp [parse, h, clear]

theorem parse_hard_failure_wipes_witness :
    parse (parse [] ⟨[strL "SFX A Y 2"], false⟩).2
          ⟨[strL "TRY abc"], true⟩ = (false, []) :=
  parse_hard_failure_wipes (parse [] ⟨[strL "SFX A Y 2"], false⟩).2
    ⟨[strL "TRY abc"], true⟩ rfl

/-- C6: a stream of only blank and comment lines (in particular the empty
stream) parses successfully and leaves the index exactly as before. -/
theorem parse_insignificant_noop (t : Table) (s : InStream)
    (h1 : s.hardErr = false)
    (h2 : ∀ l ∈ s.lines, significantLine l = false) :
    parse t s = (true, t) := by
  have key : ∀ (ls : List Line) (t0 : Table),
      (∀ l ∈ ls, significantLine l = false) → parseLines t0 ls = t0 := by
    intro ls
    induction ls with
    | nil => intro t0 _; rfl
    | cons l rest ih =>
      intro t0 hall
      have hl : significantLine l = false := hall l (by simp)
      have hstep : processLine t0 l = t0 := by
        rw [processLine_eq, hl]
        simp
      rw [parseLines, hstep]
      exact ih t0 fun x hx => hall x (by simp [hx])
  simp [parse, h1, key s.lines t h2]

theorem parse_insignificant_noop_witness :
    parse [] ⟨[strL "", strL "   ", strL "#comment1", strL "  #comment2"], false⟩
      = (true, []) ∧
    parse [] ⟨[], false⟩ = (true, []) := by
  refine ⟨?_, ?_⟩
  · exact parse_insignificant_noop []
      ⟨[strL "", strL "   ", strL "#comment1", strL "  #comment2"], false⟩
      rfl (by decide)
  · exact parse_insignificant_noop [] ⟨[], false⟩ rfl (by decide)

/-- C9: `get_command_parametars` returns the stored ordered sequence when
the key is present and an empty sequence when absent; it never fails, so
its result alone cannot separate an absent key from a present key with
zero parameter lines. -/
theorem get_parametars_total (t : Table) (k : Line) :
    (∀ ps, Table.find t k = some ps → (get_command_parametars t k).1 = ps) ∧
    (Table.find t k = none → (get_command_parametars t k).1 = []) ∧
    (get_command_parametars [] k).1 = (get_command_parametars [(k, [])] k).1 ∧
    (is_command_present [] k).1 ≠ (is_command_present [(k, [])] k).1 := by
  refine ⟨?_, ?_, ?_, ?_⟩
  · intro ps h; simp [get_command_parametars, h]
  · intro h; simp [get_command_parametars, h]
  · simp [get_command_parametars, Table.find]
  · simp [is_command_present, Table.find]

theorem get_parametars_total_witness :
    Table.find [(strL "SFX", [strL "A Y 2"])] (strL "SFX") = some [strL "A Y 2"] ∧
    (get_command_parametars [(strL "SFX", [strL "A Y 2"])] (strL "SFX")).1
      = [strL "A Y 2"] ∧
    (get_command_parametars [] (strL "TRY")).1 = [] :=
  ⟨by decide,
   (get_parametars_total [(strL "SFX", [strL "A Y 2"])] (strL "SFX")).1
     [strL "A Y 2"] (by decide),
   (get_parametars_total [] (strL "TRY")).2.1 (by decide)⟩

/-- C10: the query operations return the table unchanged; in particular
querying an absent name creates no entry, so a later presence check on
that name is still false. -/
theorem queries_leave_table (t : Table) (k1 k2 kq : Line) :
    (is_command_present t k1).2 = t ∧
    (get_command_parametars t k2).2 = t ∧
    (data t).2 = t ∧
    (Table.find t kq = none →
      (is_command_present
        (get_command_parametars (is_command_present t kq).2 kq).2 kq).1 = false) := by
  refine ⟨rfl, ?_, rfl, ?_⟩
  · unfold get_command_parametars
    cases Table.find t k2 <;> rfl
  · intro h
    simp [is_command_present, get_command_parametars, h]

theorem queries_leave_table_witness :
    Table.find [(strL "SFX", [strL "A Y 2"])] (strL "TRY") = none ∧
    (is_command_present
      (get_command_parametars
        (is_command_present [(strL "SFX", [strL "A Y 2"])] (strL "TRY")).2
        (strL "TRY")).2 (strL "TRY")).1 = false :=
  ⟨by decide,
   (queries_leave_table [(strL "SFX", [strL "A Y 2"])] (strL "SFX") (strL "SFX")
      (strL "TRY")).2.2.2 (by decide)⟩

/-- C2: the directive token of a significant line is the maximal leading run of
non-whitespace characters, uppercased character by character with the fixed
ASCII transform, and that uppercased token is the key the line populates. -/
theorem parse_uppercases_token (t : Table) (line : Line)
    (h : significantLine line = true) :
    (is_command_present (processLine t line) (upperToken line)).1 = true := by
  rw [processLine_eq, h, if_pos rfl]
  unfold is_command_present
  by_cases hp : paramText line = []
  · rw [if_pos hp, find_ensure_self]
    rfl
  · rw [if_neg hp, find_append1_self]
    rfl

theorem parse_uppercases_token_witness :
    (is_command_present (processLine [] (strL "sfx A x")) (strL "SFX")).1 = true ∧
    (is_command_present (processLine [] (strL "SFX A x")) (strL "SFX")).1 = true ∧
    (is_command_present (processLine [] (strL "Sfx A x")) (strL "SFX")).1 = true ∧
    processLine [] (strL "sfx A x") = processLine [] (strL "SFX A x") ∧
    processLine [] (strL "Sfx A x") = processLine [] (strL "SFX A x") := by
  refine ⟨?_, ?_, ?_, by decide, by decide⟩
  · have h := parse_uppercases_token [] (strL "sfx A x") (by decide)
    rwa [(by decide : upperToken (strL "sfx A x") = strL "SFX")] at h
  · have h := parse_uppercases_token [] (strL "SFX A x") (by decide)
    rwa [(by decide : upperToken (strL "SFX A x") = strL "SFX")] at h
  · have h := parse_uppercases_token [] (strL "Sfx A x") (by decide)
    rwa [(by decide : upperToken (strL "Sfx A x") = strL "SFX")] at h

/-- C3: starting from an empty index, a successful parse stores under a key
exactly the parameter texts of the lines whose token uppercases to that
key and which carry trailing text, in file order, each verbatim. -/
theorem parse_params_file_order (lines : List Line) (k : Line) :
    (parse [] ⟨lines, false⟩).1 = true ∧
    (get_command_parametars (parse [] ⟨lines, false⟩).2 k).1 =
      (lines.filter (contributes k)).map paramText := by
  constructor
  · rfl
  · have hm := find_parseLines lines [] k
    have hp : (parse [] ⟨lines, false⟩).2 = parseLines [] lines := rfl
    rw [hp, get_parametars_fst, hm]
    cases ha : lines.any (touches k) with
    | true => simp [Table.find]
    | false => simp [Table.find, filter_contributes_nil k lines ha]

/-- C4: a directive line with no trailing parameter text makes its key
present without appending anything: the parameter sequence of the key is
unchanged, hence empty when the key was absent before. -/
theorem directive_no_param (t : Table) (line : Line)
    (h1 : significantLine line = true) (h2 : paramText line = []) :
    (is_command_present (processLine t line) (upperToken line)).1 = true ∧
    (get_command_parametars (processLine t line) (upperToken line)).1 =
      (get_command_parametars t (upperToken line)).1 ∧
    (Table.find t (upperToken line) = none →
      (get_command_parametars (processLine t line) (upperToken line)).1 = []) := by
  have hfind : Table.find (processLine t line) (upperToken line)
      = some ((Table.find t (upperToken line)).getD []) := by
    rw [processLine_eq, h1, if_pos rfl, if_pos h2, find_ensure_self]
  refine ⟨?_, ?_, ?_⟩
  · unfold is_command_present
    rw [hfind]
    rfl
  · rw [get_parametars_fst, get_parametars_fst, hfind]
    rfl
  · intro hnone
    rw [get_parametars_fst, hfind, hnone]
    rfl

theorem directive_no_param_witness :
    significantLine (strL "  COMPLEXPREFIXES  ") = true ∧
    paramText (strL "  COMPLEXPREFIXES  ") = [] ∧
    (is_command_present (processLine [] (strL "  COMPLEXPREFIXES  "))
       (strL "COMPLEXPREFIXES")).1 = true ∧
    (get_command_parametars (processLine [] (strL "  COMPLEXPREFIXES  "))
       (strL "COMPLEXPREFIXES")).1 = [] := by
  have h := directive_no_param [] (strL "  COMPLEXPREFIXES  ")
    (by decide) (by decide)
  rw [(by decide : upperToken (strL "  COMPLEXPREFIXES  ")
        = strL "COMPLEXPREFIXES")] at h
  exact ⟨by decide, by decide, h.1, h.2.2 (by decide)⟩

/-- C5: a `#` is a comment marker only as the first non-whitespace
character of a line; once parameter text has begun, the rest of the line —
`#` included — is stored verbatim as one parameter line. -/
theorem hash_only_leading_comment (t : Table) (line : Line) :
    ((line.dropWhile isSpaceC).head? = some '#' → processLine t line = t) ∧
    (significantLine line = true → '#' ∈ paramText line →
      (get_command_parametars (processLine t line) (upperToken line)).1 =
        (get_command_parametars t (upperToken line)).1 ++ [paramText line]) := by
  constructor
  · intro h
    have hs : significantLine line = false := by
      unfold significantLine
      cases hd : line.dropWhile isSpaceC with
      | nil => rfl
      | cons c cs =>
        rw [hd] at h
        simp at h
        simp [h]
    rw [processLine_eq, hs]
    rfl
  · intro h1 h2
    have hp : paramText line ≠ [] := by
      intro hh
      rw [hh] at h2
      simp at h2
    have hfind : Table.find (processLine t line) (upperToken line)
        = some ((Table.find t (upperToken line)).getD [] ++ [paramText line]) := by
      rw [processLine_eq, h1, if_pos rfl, if_neg hp, find_append1_self,
        find_ensure_self]
      simp
    rw [get_parametars_fst, get_parametars_fst, hfind]
    rfl

theorem hash_only_leading_comment_witness :
    processLine [(strL "SFX", [strL "A Y 2"])] (strL "  #comment2")
      = [(strL "SFX", [strL "A Y 2"])] ∧
    (get_command_parametars
       (processLine [] (strL "lang hu_HU #this is not a comment"))
       (strL "LANG")).1 = [strL "hu_HU #this is not a comment"] := by
  have h := hash_only_leading_comment [] (strL "lang hu_HU #this is not a comment")
  have h2 := h.2 (by decide) (by decide)
  rw [(by decide : upperToken (strL "lang hu_HU #this is not a comment")
        = strL "LANG"),
      (by decide : paramText (strL "lang hu_HU #this is not a comment")
        = strL "hu_HU #this is not a comment")] at h2
  refine ⟨?_, ?_⟩
  · exact (hash_only_leading_comment [(strL "SFX", [strL "A Y 2"])]
      (strL "  #comment2")).1 (by decide)
  · rw [h2]
    decide

/-- C7: a parse whose reads all succeed to end-of-stream never resets the
index: it succeeds, every previously present key is still present, and its
old parameter lines persist unchanged, in order, with new ones only
appended after them. -/
theorem parse_accumulates (t : Table) (s : InStream) (h : s.hardErr = false)
    (k : Line) (ps : Params) (hk : Table.find t k = some ps) :
    (parse t s).1 = true ∧
    ∃ qs, Table.find (parse t s).2 k = some (ps ++ qs) := by
  have hp : (parse t s).2 = parseLines t s.lines := by
    simp [parse, h]
  constructor
  · simp [parse, h]
  · rw [hp]
    have hm := find_parseLines s.lines t k
    cases ha : s.lines.any (touches k) with
    | true =>
      refine ⟨(s.lines.filter (contributes k)).map paramText, ?_⟩
      rw [hm, ha, if_pos rfl, hk]
      rfl
    | false =>
      refine ⟨[], ?_⟩
      rw [hm, ha, hk]
      simp

theorem parse_accumulates_witness :
    (parse [(strL "SFX", [strL "A Y 2"])] ⟨[strL "TRY abc"], false⟩).1 = true ∧
    ∃ qs, Table.find
        (parse [(strL "SFX", [strL "A Y 2"])] ⟨[strL "TRY abc"], false⟩).2
        (strL "SFX") = some ([strL "A Y 2"] ++ qs) :=
  parse_accumulates [(strL "SFX", [strL "A Y 2"])] ⟨[strL "TRY abc"], false⟩
    rfl (strL "SFX") [strL "A Y 2"] (by decide)

/-! ## The key invariant (C8) -/

/-- A legal index key: non-empty and containing no ASCII lowercase letter
(code points 97–122). -/
def upperKey (k : Line) : Prop :=
  k ≠ [] ∧ ∀ c ∈ k, ¬(97 ≤ c.toNat ∧ c.toNat ≤ 122)

/-- Every key present in the table is a legal key. -/
def GoodKeys (t : Table) : Prop :=
  ∀ k v, Table.find t k = some v → upperKey k

/-- One externally visible operation on a parser instance. -/
inductive Op where
  | clearOp : Op
  | parseOp : InStream → Op

/-- The table after one operation. -/
def runOp (t : Table) : Op → Table
  | Op.clearOp => clear t
  | Op.parseOp s => (parse t s).2

/-- The table after a sequence of operations. -/
def runOps (t : Table) : List Op → Table
  | [] => t
  | op :: ops => runOps (runOp t op) ops

theorem toUpper_not_lower (c : Char) :
    ¬(97 ≤ (Char.toUpper c).toNat ∧ (Char.toUpper c).toNat ≤ 122) := by
  have haux : ∀ n : Nat, 97 ≤ n → n ≤ 122 →
      ¬(97 ≤ (Char.ofNat (n - 32)).toNat ∧ (Char.ofNat (n - 32)).toNat ≤ 122) := by
    intro n h1 h2
    interval_cases n <;> decide
  unfold Char.toUpper
  by_cases h : c.toNat ≥ 97 ∧ c.toNat ≤ 122
  · rw [if_pos h]
    exact haux c.toNat h.1 h.2
  · rw [if_neg h]
    exact fun hc => h ⟨hc.1, hc.2⟩

theorem head_dropWhile_space_false :
    ∀ (l : Line) (c : Char) (cs : List Char),
      l.dropWhile isSpaceC = c :: cs → isSpaceC c = false := by
  intro l
  induction l with
  | nil => intro c cs h; simp at h
  | cons a as ih =>
    intro c cs h
    rw [List.dropWhile_cons] at h
    by_cases hp : isSpaceC a
    · rw [if_pos hp] at h
      exact ih c cs h
    · rw [if_neg hp] at h
      cases h
      simpa using hp

theorem upperToken_upperKey (line : Line) (h : significantLine line = true) :
    upperKey (upperToken line) := by
  constructor
  · unfold significantLine at h
    unfold upperToken
    cases hd : line.dropWhile isSpaceC with
    | nil => rw [hd] at h; simp at h
    | cons c cs =>
      have hc : isSpaceC c = false := head_dropWhile_space_false line c cs hd
      simp [List.takeWhile_cons, hc]
  · intro x hx
    unfold upperToken at hx
    rw [List.mem_map] at hx
    obtain ⟨y, _, hy⟩ := hx
    rw [← hy]
    exact toUpper_not_lower y

theorem goodKeys_ensure (t : Table) (k0 : Line) (ht : GoodKeys t)
    (hk : upperKey k0) : GoodKeys (Table.ensure t k0) := by
  intro k v hf
  by_cases h : k = k0
  · subst h; exact hk
  · rw [find_ensure_ne t k0 k h] at hf
    exact ht k v hf

theorem goodKeys_append1 (t : Table) (k0 p : Line) (ht : GoodKeys t)
    (hk : upperKey k0) : GoodKeys (Table.append1 t k0 p) := by
  intro k v hf
  by_cases h : k = k0
  · subst h; exact hk
  · rw [find_append1_ne t k0 p k h] at hf
    exact ht k v hf

theorem goodKeys_processLine (t : Table) (line : Line) (ht : GoodKeys t) :
    GoodKeys (processLine t line) := by
  rw [processLine_eq]
  cases hs : significantLine line with
  | false => exact ht
  | true =>
    have hk := upperToken_upperKey line hs
    by_cases hp : paramText line = []
    · rw [if_pos rfl, if_pos hp]
      exact goodKeys_ensure t (upperToken line) ht hk
    · rw [if_pos rfl, if_neg hp]
      exact goodKeys_append1 _ (upperToken line) (paramText line)
        (goodKeys_ensure t (upperToken line) ht hk) hk

theorem goodKeys_parseLines (ls : List Line) (t : Table) (ht : GoodKeys t) :
    GoodKeys (parseLines t ls) := by
  induction ls generalizing t with
  | nil => exact ht
  | cons l rest ih => exact ih (processLine t l) (goodKeys_processLine t l ht)

theorem goodKeys_empty : GoodKeys ([] : Table) := by
  intro k v hf
  simp [Table.find] at hf

theorem goodKeys_runOp (t : Table) (op : Op) (ht : GoodKeys t) :
    GoodKeys (runOp t op) := by
  cases op with
  | clearOp => exact goodKeys_empty
  | parseOp s =>
    have h2 : runOp t (Op.parseOp s) = (parse t s).2 := rfl
    rw [h2]
    cases hse : s.hardErr with
    | true =>
      have h3 : (parse t s).2 = [] := by simp [parse, hse, clear]
      rw [h3]
      exact goodKeys_empty
    | false =>
      have h3 : (parse t s).2 = parseLines t s.lines := by simp [parse, hse]
      rw [h3]
      exact goodKeys_parseLines s.lines t ht

theorem goodKeys_runOps (ops : List Op) (t : Table) (ht : GoodKeys t) :
    GoodKeys (runOps t ops) := by
  induction ops generalizing t with
  | nil => exact ht
  | cons op rest ih => exact ih (runOp t op) (goodKeys_runOp t op ht)

/-- C8: after any sequence of clear and parse operations on a fresh
instance, every key in the index is non-empty and contains no lowercase
letter. -/
theorem keys_nonempty_upper (ops : List Op) (k : Line) (v : Params)
    (h : Table.find (runOps [] ops) k = some v) :
    k ≠ [] ∧ ∀ c ∈ k, ¬(97 ≤ c.toNat ∧ c.toNat ≤ 122) :=
  goodKeys_runOps ops [] goodKeys_empty k v h

theorem keys_nonempty_upper_witness :
    Table.find
        (runOps [] [Op.parseOp ⟨[strL "sfx a"], false⟩]) (strL "SFX")
      = some [strL "a"] ∧
    (strL "SFX" ≠ [] ∧
      ∀ c ∈ strL "SFX", ¬(97 ≤ c.toNat ∧ c.toNat ≤ 122)) :=
  ⟨by decide,
   keys_nonempty_upper [Op.parseOp ⟨[strL "sfx a"], false⟩] (strL "SFX")
     [strL "a"] (by decide)⟩

end Hunspell
